import Mathlib

/-!
Verification development for the replicate-weight generator of the samplics
repository (`src/samplics/weighting/replicates.py`, class `ReplicateWeight`),
checked against the specification of the design-based variance-estimation core.

The Python code is shallowly embedded: numpy arrays become lists, machine
floats become exact rationals (`ℚ`), raised exceptions become `Except` errors.
Helper modules of the repository that are not part of the provided source
(`samplics.utils.formats`, `samplics.utils.checks`, `samplics.utils.hadamard`,
and the Taylor-linearization estimator of `samplics.estimation`) are modelled
from the spec where needed; each such definition is marked
`Modelled from the spec:` in its doc comment.
-/

namespace Samplics

/-- Kinds of exceptions raised by `ReplicateWeight`: Python `AssertionError`
(raised by `raise AssertionError(...)` and by assertion-style checks) and
Python `ValueError` (raised for an invalid Fay coefficient). -/
inductive RepError
  | assertionError
  | valueError
deriving DecidableEq

/-- A fixed trivial random-draw function (stands for one concrete seeded RNG
stream when a bootstrap path has to be evaluated on a concrete input). -/
def rngZero : Nat → Nat → Nat → Nat := fun _ _ _ => 0

/-- Fuel-driven floor of the base-2 logarithm; `log2floor r` embeds Python's
`int(math.log(r, 2))` from `_brr_number_reps` (exact for the integer inputs
considered here; the float inaccuracy of `math.log` at astronomically large
inputs is not modelled). -/
def log2floorAux : Nat → Nat → Nat
  | 0, _ => 0
  | fuel+1, n => if n ≤ 1 then 0 else 1 + log2floorAux fuel (n / 2)

/-- Floor of the base-2 logarithm, `log2floor n = Nat.log 2 n` for `n ≥ 1`. -/
def log2floor (n : Nat) : Nat := log2floorAux n n

/-- Insertion into a strictly sorted list of integers, skipping duplicates.
Building block for the embedding of `np.unique` (sorted distinct values). -/
def insertSorted (x : ℤ) : List ℤ → List ℤ
  | [] => [x]
  | y :: ys => if x < y then x :: y :: ys else if x = y then y :: ys else y :: insertSorted x ys

/-- Embedding of `np.unique` on a 1-d integer array: the sorted list of the
distinct values of `l`. -/
def uniqueSorted (l : List ℤ) : List ℤ := l.foldr insertSorted []

/-- Embedding of `ReplicateWeight._degree_of_freedom` (replicates.py lines
70-81).  `stratum = none` models a Python `None` argument, whose
`formats.numpy_array` conversion is a 0-d array of size 1, so it takes the
`stratum.size <= 1` branch.  Note the code counts `np.unique(psu).size`,
i.e. distinct PSU labels globally, not distinct (stratum, PSU) pairs. -/
def degreeOfFreedom (weight : List ℚ) (stratum : Option (List ℤ)) (psu : List ℤ) : ℤ :=
  let stratumSize : Nat := match stratum with | none => 1 | some l => l.length
  if stratumSize ≤ 1 then (psu.dedup.length : ℤ) - 1
  else if 1 < psu.length then (psu.dedup.length : ℤ) - (((stratum.getD []).dedup.length : ℤ))
  else (weight.length : ℤ)

/-- The rounding step of `_brr_number_reps` (replicates.py lines 141-147):
counts at most 28 are rounded up to the next multiple of 4; above 28 a count
that is not a power of two is replaced by `2 ^ int(math.log(r, 2))`, the
power of two *below* it. -/
def brrRound (r : Nat) : Nat :=
  if r ≤ 28 then (if r % 4 ≠ 0 then 4 * (r / 4 + 1) else r)
  else (if 2 ^ log2floor r ≠ r then 2 ^ log2floor r else r)

/-- Embedding of `ReplicateWeight._brr_number_reps` (replicates.py lines
127-149).  Returns `(number_reps, number_psus, number_strata)`.  In the
stratified branch PSUs are counted as distinct (stratum, PSU) pairs
(`np.unique(np.array(list(zip(stratum, psu))), axis=0)`); `List.dedup` keeps
the same distinct elements as `np.unique` (only their count is used).
The `AssertionError` is raised iff the number of pairs differs from twice the
number of strata. -/
def brrNumberReps (numberReps : Nat) (psu : List ℤ) (stratum : Option (List ℤ)) :
    Except RepError (Nat × Nat × Nat) :=
  match stratum with
  | none =>
      let nPsus := psu.dedup.length
      let nStrata := nPsus / 2 + nPsus % 2
      Except.ok (brrRound (max numberReps nStrata), nPsus, nStrata)
  | some strat =>
      let nPsus := ((strat.zip psu).dedup).length
      let nStrata := strat.dedup.length
      if 2 * nStrata ≠ nPsus then Except.error RepError.assertionError
      else Except.ok (brrRound (max numberReps nStrata), nPsus, nStrata)

/-- The distinct PSUs observed inside stratum `s`: embedding of
`np.unique(psu[stratum == s])` from `_jkn_replicates` / `_boot_replicates`
(only the distinct values matter downstream, via their count). -/
def psusInStratum (stratum psu : List ℤ) (s : ℤ) : List ℤ :=
  ((stratum.zip psu).filterMap (fun p => if p.1 = s then some p.2 else none)).dedup

/-- Number of distinct PSUs inside stratum `s`. -/
def stratumPsuCount (stratum psu : List ℤ) (s : ℤ) : Nat :=
  (psusInStratum stratum psu s).length

/-- Per-stratum PSU counts `n_h`, in the sorted order of the distinct stratum
labels (the order in which `_jkn_replicates` and `_boot_replicates` traverse
`np.unique(stratum)`). -/
def strataSizes (stratum psu : List ℤ) : List Nat :=
  (uniqueSorted stratum).map (stratumPsuCount stratum psu)

/-- Start offset of the block of stratum `h` in the flattened PSU indexing
(`start` in the loop of `_jkn_replicates`). -/
def offset (sizes : List Nat) (h : Nat) : Nat := (sizes.take h).sum

/-- Embedding of `ReplicateWeight._jkn_psus_replicates` (replicates.py lines
177-185): entry `(i, j)` of `(n/(n-1)) * (ones(n, n) - identity(n))`. -/
def jknPsusReplicates (n : Nat) (i j : Nat) : ℚ :=
  ((n : ℚ) / ((n : ℚ) - 1)) * (if i = j then 0 else 1)

/-- Entry `(i, j)` of the stratified jackknife coefficient matrix of
`_jkn_replicates` (replicates.py lines 187-208): starting from a matrix of
ones, the loop over the sorted strata writes the `_jkn_psus_replicates` block
of stratum `h` on the diagonal square `[start, start+n_h) × [start, start+n_h)`
with `start` the accumulated offset; the blocks are disjoint, so entry
`(i, j)` is given by the first (hence only) block containing both indices,
and is 1 when no block contains both. -/
def jknCoefsAux : List Nat → Nat → Nat → Nat → ℚ
  | [], _, _, _ => 1
  | n :: rest, start, i, j =>
      if start ≤ i ∧ i < start + n ∧ start ≤ j ∧ j < start + n then
        jknPsusReplicates n (i - start) (j - start)
      else jknCoefsAux rest (start + n) i j

/-- Combination coefficient of replicate `g` from `_jkn_replicates`: the
vector starts as `((R-1)/R) * ones(R)` and the loop overwrites the slice of
stratum `h` with `(n_h - 1)/n_h`. -/
def jknRepCoefAux : List Nat → Nat → Nat → ℚ → ℚ
  | [], _, _, base => base
  | n :: rest, start, g, base =>
      if start ≤ g ∧ g < start + n then ((n : ℚ) - 1) / (n : ℚ)
      else jknRepCoefAux rest (start + n) g base

/-- Jackknife coefficient matrix as the list of its rows, as assembled by
`replicate` for method `"jackknife"`: `R = number_reps` rows and columns; for
an unstratified call the plain `_jkn_psus_replicates` matrix over the distinct
PSUs, for a stratified call the block matrix of `_jkn_replicates`. -/
def jknMatrixList (psu : List ℤ) (stratum : Option (List ℤ)) (R : Nat) : List (List ℚ) :=
  match stratum with
  | none =>
      (List.range psu.dedup.length).map (fun i =>
        (List.range R).map (fun g => jknPsusReplicates psu.dedup.length i g))
  | some strat =>
      (List.range R).map (fun i =>
        (List.range R).map (fun g => jknCoefsAux (strataSizes strat psu) 0 i g))

/-- Jackknife combination coefficients as a list, as set by
`_jkn_replicates`: `((R-1)/R)` everywhere, overwritten per stratum with
`(n_h-1)/n_h` in the stratified case. -/
def jknRepCoefsList (psu : List ℤ) (stratum : Option (List ℤ)) (R : Nat) : List ℚ :=
  match stratum with
  | none => List.replicate R (((R : ℚ) - 1) / (R : ℚ))
  | some strat =>
      (List.range R).map (fun g =>
        jknRepCoefAux (strataSizes strat psu) 0 g (((R : ℚ) - 1) / (R : ℚ)))

/-- Parity of the bitwise AND of two naturals (fuel-driven on the first
argument so that it evaluates by kernel reduction). -/
def parityAndAux : Nat → Nat → Nat → Bool
  | 0, _, _ => false
  | fuel+1, i, j =>
      if i = 0 then false
      else Bool.xor (decide (i % 2 = 1) && decide (j % 2 = 1)) (parityAndAux fuel (i / 2) (j / 2))

/-- Parity of the bitwise AND of `i` and `j`. -/
def parityAnd (i j : Nat) : Bool := parityAndAux i i j

/-- Modelled from the spec: entry `(i, j)` of the order-`n` Hadamard matrix
built by `samplics.utils.hadamard.hadamard` (module not part of the provided
source).  The spec only requires an order-`R` matrix with entries ±1 whose
first column is trivial; the Sylvester/Walsh form `(-1)^popcount(i AND j)` is
used.  No claim below depends on the individual entries. -/
def hadamardEntry (i j : Nat) : ℚ := if parityAnd i j then -1 else 1

/-- Embedding of the matrix built by `_brr_replicates` (replicates.py lines
162-174), already transposed as returned: row `p` is PSU `p` of the pairing
(stratum `p/2`, first PSU iff `p % 2 = 0`), column `r` is a replicate.  The
code takes Hadamard columns `1..K`, duplicates each, and replaces the pair by
`[fay, 2-fay]` when the Hadamard entry is `+1` and `[2-fay, fay]` otherwise. -/
def brrMatrix (R K : Nat) (fay : ℚ) : List (List ℚ) :=
  (List.range (2 * K)).map (fun p =>
    (List.range R).map (fun r =>
      if hadamardEntry r (p / 2 + 1) = 1 then (if p % 2 = 0 then fay else 2 - fay)
      else (if p % 2 = 0 then 2 - fay else fay)))

/-- Embedding of `ReplicateWeight._boot_psus_replicates` (replicates.py lines
84-102) at the argument values used by `replicate` (`samp_rate=0`,
`size_gap=1`), for which `ratio_sqrt = sqrt((1-0)*(n-1)/(n-1)) = 1` exactly
and the coefficient of PSU `i` in replicate `g` is `(n/(n-1)) * m(i, g)` with
`m` the multiplicity of PSU `i` among the `n-1` draws of replicate `g`.
Draws come from the explicit stream `rngk` (reduced mod `n` to stay in
range), standing for the seeded `np.random.choice`.  Raises
`AssertionError` when `n ≤ 1` (`size_gap` not smaller than the units). -/
def bootBlock (n R : Nat) (rngk : Nat → Nat → Nat) : Except RepError (List (List ℚ)) :=
  if n ≤ 1 then Except.error RepError.assertionError
  else Except.ok ((List.range n).map (fun i =>
    (List.range R).map (fun g =>
      ((n : ℚ) / ((n : ℚ) - 1)) *
        ((((List.range (n - 1)).filter (fun slot => decide (rngk g slot % n = i))).length : Nat) : ℚ))))

/-- Per-stratum bootstrap blocks stacked in sorted-stratum order, embedding
the loop of `_boot_replicates` (replicates.py lines 104-124); the stratum
index is passed to the draw stream to model the advancing global RNG. -/
def bootBlocks (R : Nat) (rng : Nat → Nat → Nat → Nat) : Nat → List Nat → Except RepError (List (List ℚ))
  | _, [] => Except.ok []
  | k, n :: rest => do
      let b ← bootBlock n R (rng k)
      let bs ← bootBlocks R rng (k + 1) rest
      pure (b ++ bs)

/-- Embedding of `ReplicateWeight._boot_replicates`. -/
def bootMatrix (psu : List ℤ) (stratum : Option (List ℤ)) (R : Nat)
    (rng : Nat → Nat → Nat → Nat) : Except RepError (List (List ℚ)) :=
  match stratum with
  | none => bootBlock psu.dedup.length R (rng 0)
  | some strat => bootBlocks R rng 0 (strataSizes strat psu)

/-- State of a `ReplicateWeight` instance (the attributes set by `__init__`
and mutated by `replicate`; the mutations are returned in `RepOutput`). -/
structure RWState where
  method : String
  stratification : Bool
  numberReps : Nat
  fayCoef : ℚ
  repCoefs : List ℚ
deriving DecidableEq

/-- Embedding of `ReplicateWeight.__init__` (replicates.py lines 17-41).
For `"bootstrap"` the constructor first sets `rep_coefs` to `R` copies of
`1/R` (line 30) but line 37 then unconditionally reassigns `rep_coefs = []`,
so the stored list is empty; for `"brr"` `number_reps` is reset to 0
regardless of the argument.  For other methods Python leaves `number_reps`
and `fay_coef` unset; they are modelled as 0, which is observationally
equivalent because every path that reads them assigns them first. -/
def init (method : String) (stratification : Bool) (numberReps : Nat) (fayCoef : ℚ) : RWState :=
  let m := method.toLower
  { method := m
    stratification := stratification
    numberReps := if m = "bootstrap" then numberReps else 0
    fayCoef := if m = "brr" then fayCoef else 0
    repCoefs := [] }

/-- The replicate-weight table and the mutated per-call attributes returned
by `replicate`: one row per original unit, carrying its (stratum, PSU) key,
its sampling weight and its `R` replicate columns, plus `rep_coefs`,
`number_reps` and the degrees of freedom. -/
structure RepOutput where
  table : List ((Option ℤ × ℤ) × ℚ × List ℚ)
  repCoefs : List ℚ
  numberReps : Nat
  dof : ℤ
deriving DecidableEq

/-- Stable insertion (by stratum label) used to embed
`stratum_psu.sort_values(by=str_varname)`: rows are ordered by stratum,
ties keeping their relative order.  All keys on this path carry a `some`
stratum, so the `getD` default is never compared. -/
def insertByStratum (x : Option ℤ × ℤ) : List (Option ℤ × ℤ) → List (Option ℤ × ℤ)
  | [] => [x]
  | y :: ys => if x.1.getD 0 < y.1.getD 0 then x :: y :: ys else y :: insertByStratum x ys

/-- Stable sort of the key rows by stratum label. -/
def sortByStratum (l : List (Option ℤ × ℤ)) : List (Option ℤ × ℤ) :=
  l.foldl (fun acc x => insertByStratum x acc) []

/-- The per-method dispatch of `replicate` (replicates.py lines 259-272),
returning `(number_reps, rep_coefs, coefficient matrix)`.
For `"jackknife"`, `number_reps` is set to the number of key rows first.
For `"bootstrap"`, `rep_coefs` is left untouched (the empty list from
`__init__`).  For `"brr"`, `_brr_replicates` validates the Fay coefficient
(`ValueError`), computes the replicate count, sets `rep_coefs` to
`1/(R*(1-fay)^2)` (line 158), and `replicate` then overwrites it with
`(1/R)*(1-fay)^2` (lines 266-268, the unparenthesized
`1 / self.number_reps * pow(1 - self.fay_coef, 2)`).
Any other method raises `AssertionError` (lines 269-272). -/
def dispatch (st : RWState) (psu : List ℤ) (stratum : Option (List ℤ)) (psusIdsLen : Nat)
    (rng : Nat → Nat → Nat → Nat) : Except RepError (Nat × List ℚ × List (List ℚ)) :=
  if st.method = "jackknife" then
    Except.ok (psusIdsLen, jknRepCoefsList psu stratum psusIdsLen,
      jknMatrixList psu stratum psusIdsLen)
  else if st.method = "bootstrap" then do
    let m ← bootMatrix psu stratum st.numberReps rng
    Except.ok (st.numberReps, st.repCoefs, m)
  else if st.method = "brr" then
    if ¬(0 ≤ st.fayCoef ∧ st.fayCoef < 1) then Except.error RepError.valueError
    else do
      let rns ← brrNumberReps st.numberReps psu stratum
      Except.ok (rns.1, List.replicate rns.1 (1 / (rns.1 : ℚ) * (1 - st.fayCoef) ^ 2),
        brrMatrix rns.1 rns.2.2 st.fayCoef)
  else Except.error RepError.assertionError

/-- Embedding of the final merge (replicates.py lines 274-284): each original
unit row looks up, by its (stratum, PSU) key, the positionally attached
matrix row of `psus_ids`, and the replicate coefficients are multiplied into
the sampling weight unless raw coefficients were requested. -/
def buildTable (keys : List (Option ℤ × ℤ)) (w : List ℚ) (psusIds : List (Option ℤ × ℤ))
    (matrix : List (List ℚ)) (flag : Bool) : List ((Option ℤ × ℤ) × ℚ × List ℚ) :=
  (keys.zip w).map (fun kw =>
    let coefs := matrix.getD (psusIds.findIdx (fun k2 => decide (k2 = kw.1))) []
    (kw.1, kw.2, if flag then coefs else coefs.map (fun c => kw.2 * c)))

/-- Assembles the output once the key rows and the deduplicated
`psus_ids` are known. -/
def assembleWith (st : RWState) (keys psusIds : List (Option ℤ × ℤ)) (w : List ℚ)
    (psu : List ℤ) (stratum : Option (List ℤ)) (flag : Bool)
    (rng : Nat → Nat → Nat → Nat) (dof : ℤ) : Except RepError RepOutput := do
  let d ← dispatch st psu stratum psusIds.length rng
  Except.ok { table := buildTable keys w psusIds d.2.2 flag
              repCoefs := d.2.1
              numberReps := d.1
              dof := dof }

/-- Embedding of `ReplicateWeight.replicate` (replicates.py lines 210-286)
after the `stratum = None` override; see `replicate` below.  The three key
constructions mirror lines 237-255: a given stratum yields (stratum, PSU)
keys sorted by stratum; BRR without a stratum builds pseudo-strata by pairing
consecutive distinct PSUs after an even-count check (Modelled from the spec:
`checks._check_brr_number_psus`, not part of the provided source, fails with
an `AssertionError`-kind when the number of distinct PSUs is odd); otherwise
the key is the PSU alone.  `psus_ids` is the deduplication of the key rows
(`np.unique`/`drop_duplicates` keep the same distinct rows; only their count
and their positional pairing with the matrix are used downstream). -/
def replicateCore (st : RWState) (w : List ℚ) (psu : List ℤ) (stratum : Option (List ℤ))
    (flag : Bool) (rng : Nat → Nat → Nat → Nat) : Except RepError RepOutput :=
  let dof := degreeOfFreedom w stratum psu
  match stratum with
  | none =>
      if st.stratification then Except.error RepError.assertionError
      else if st.method = "brr" then
        let dp := psu.dedup
        if dp.length % 2 ≠ 0 then Except.error RepError.assertionError
        else
          let keys := psu.map (fun p =>
            (some (((1 + (dp.findIdx (fun q => decide (q = p))) / 2 : Nat) : ℤ)), p))
          assembleWith st keys keys.dedup w psu none flag rng dof
      else
        let keys := psu.map (fun p => ((none : Option ℤ), p))
        assembleWith st keys keys.dedup w psu none flag rng dof
  | some strat =>
      let keys := (strat.zip psu).map (fun p => (some p.1, p.2))
      assembleWith st keys (sortByStratum keys).dedup w psu (some strat) flag rng dof

/-- Embedding of `ReplicateWeight.replicate`: for a generator built with
`stratification=False` the stratum argument is discarded (set to `None`,
lines 232-233) before any processing. -/
def replicate (st : RWState) (w : List ℚ) (psu : List ℤ) (stratum : Option (List ℤ))
    (flag : Bool) (rng : Nat → Nat → Nat → Nat) : Except RepError RepOutput :=
  replicateCore st w psu (if st.stratification then stratum else none) flag rng

/-- The `rep_coefs` attribute after a call, `[]` if the call raised. -/
def repCoefsOf (r : Except RepError RepOutput) : List ℚ :=
  match r with
  | Except.ok o => o.repCoefs
  | Except.error _ => []

/-- The `number_reps` attribute after a call, 0 if the call raised. -/
def numberRepsOf (r : Except RepError RepOutput) : Nat :=
  match r with
  | Except.ok o => o.numberReps
  | Except.error _ => 0

/-- Whether a call returned normally. -/
def isOk (r : Except RepError RepOutput) : Bool :=
  match r with
  | Except.ok _ => true
  | Except.error _ => false

/-! ## Jackknife variance of a total versus the Taylor variance

For the variance comparison the data is taken at PSU level after spec §4.2
step 1: `D : List (List ℚ)` holds, stratum by stratum (in the code's sorted
stratum order), the PSU-level totals `z` of the weighted variable.  The
jackknife side applies the code's coefficient matrix `jknCoefsAux` and
combination coefficients `jknRepCoefAux`. -/

/-- Dot product of the entry stream `E` against a list, starting at index
`i`: `Σ_k E (i+k) * l_k`. -/
def rowDotE (E : Nat → ℚ) : Nat → List ℚ → ℚ
  | _, [] => 0
  | i, z :: zs => E i * z + rowDotE E (i + 1) zs

/-- Applies column `c` of the jackknife coefficient matrix to the flattened
data: the blocks of `D` are walked with their running offset, exactly as the
rows of the matrix of `_jkn_replicates` are laid out. -/
def dotColAux (sizes : List Nat) (c : Nat) : Nat → List (List ℚ) → ℚ
  | _, [] => 0
  | start, l :: rest =>
      rowDotE (fun k => jknCoefsAux sizes 0 k c) start l + dotColAux sizes c (start + l.length) rest

/-- The full-sample total `θ = Σ z`. -/
def totalOf (D : List (List ℚ)) : ℚ := (D.map List.sum).sum

/-- The replicate total `θ_g` for replicate (column) `g`: the coefficients of
column `g` of the code's jackknife matrix applied to the PSU totals. -/
def repTotal (D : List (List ℚ)) (g : Nat) : ℚ :=
  dotColAux (D.map List.length) g 0 D

/-- The combination coefficient of replicate `g` produced by
`_jkn_replicates` for this stratified layout. -/
def jkRepCoef (D : List (List ℚ)) (g : Nat) : ℚ :=
  jknRepCoefAux (D.map List.length) 0 g
    ((((D.map List.length).sum : ℚ) - 1) / ((D.map List.length).sum : ℚ))

/-- The jackknife variance `Σ_g coef_g * (θ_g - θ)^2` of the total, computed
from the code's replicate weight set (matrix and combination coefficients). -/
def jkVarTotal (D : List (List ℚ)) : ℚ :=
  ((List.range (D.map List.length).sum).map (fun g =>
    jkRepCoef D g * (repTotal D g - totalOf D) ^ 2)).sum

/-- Modelled from the spec: the Taylor-linearization variance of a total
(spec §4.2 steps 1-4 with `fpc = 1`; the estimator module
`samplics.estimation` is not part of the provided source).  Per stratum `h`
with `n_h` PSU totals `z`: `var_h = (n_h/(n_h-1)) * Σ (z - z̄_h)^2`, and the
total variance is `Σ_h var_h`. -/
def taylorVarTotal (D : List (List ℚ)) : ℚ :=
  (D.map (fun l =>
    ((l.length : ℚ) / ((l.length : ℚ) - 1)) *
      (l.map (fun z => (z - l.sum / (l.length : ℚ)) ^ 2)).sum)).sum

/-! ## Jackknife versus Taylor for the mean (counterexample material)

For an unstratified single-stage design each unit is its own PSU; the code's
matrix is `_jkn_psus_replicates n` and all combination coefficients are
`(n-1)/n`.  The replicate mean re-weights both numerator and denominator. -/

/-- Pointwise product of two lists (the weighted values `w*y`). -/
def mulLists (a b : List ℚ) : List ℚ := (a.zip b).map (fun p => p.1 * p.2)

/-- `Σ_k M(k, g) * l_k` for the unstratified jackknife matrix `M` of
`_jkn_psus_replicates` over `n = ws.length` PSUs. -/
def repApply (ws : List ℚ) (g : Nat) (l : List ℚ) : ℚ :=
  rowDotE (fun k => jknPsusReplicates ws.length k g) 0 l

/-- The weighted mean `Σ w y / Σ w`. -/
def weightedMean (ws ys : List ℚ) : ℚ := (mulLists ws ys).sum / ws.sum

/-- The mean computed from the replicate-`g` weights `M(·, g) * w`. -/
def repMean (ws ys : List ℚ) (g : Nat) : ℚ :=
  repApply ws g (mulLists ws ys) / repApply ws g ws

/-- The jackknife variance of the mean from the code's replicate weight set,
unstratified: `Σ_g ((n-1)/n) * (θ_g - θ)^2`. -/
def jkVarMeanUnstrat (ws ys : List ℚ) : ℚ :=
  ((List.range ws.length).map (fun g =>
    (((ws.length : ℚ) - 1) / (ws.length : ℚ)) * (repMean ws ys g - weightedMean ws ys) ^ 2)).sum

/-- Modelled from the spec: the Taylor-linearization variance of a mean for
an unstratified single-stage design (spec §4.2: `z` is the weighted residual
`w*(y - ȳ)/Σw`, and `var = (n/(n-1)) * Σ (z - z̄)^2`; the estimator module is
not part of the provided source). -/
def taylorVarMeanUnstrat (ws ys : List ℚ) : ℚ :=
  ((ws.length : ℚ) / ((ws.length : ℚ) - 1)) *
    (((ws.zip ys).map (fun p => p.1 * (p.2 - weightedMean ws ys) / ws.sum)).map (fun z =>
      (z - (((ws.zip ys).map (fun p => p.1 * (p.2 - weightedMean ws ys) / ws.sum)).sum
            / (ws.length : ℚ))) ^ 2)).sum

/-! ## Properties of `uniqueSorted` and the distinct-pair partition -/

lemma mem_insertSorted {a x : ℤ} {l : List ℤ} : a ∈ insertSorted x l ↔ a = x ∨ a ∈ l := by
  induction l with
  | nil => simp [insertSorted]
  | cons y ys ih =>
      simp only [insertSorted]
      split_ifs with h1 h2
      · simp [List.mem_cons]
      · subst h2
        simp only [List.mem_cons]
        tauto
      · simp only [List.mem_cons, ih]
        tauto

lemma sorted_insertSorted {x : ℤ} {l : List ℤ} (h : l.Sorted (· < ·)) :
    (insertSorted x l).Sorted (· < ·) := by
  induction l with
  | nil => simp [insertSorted]
  | cons y ys ih =>
      rw [List.sorted_cons] at h
      obtain ⟨hy, hys⟩ := h
      simp only [insertSorted]
      split_ifs with h1 h2
      · rw [List.sorted_cons]
        refine ⟨?_, List.sorted_cons.mpr ⟨hy, hys⟩⟩
        intro b hb
        rcases List.mem_cons.mp hb with rfl | hb
        · exact h1
        · exact lt_trans h1 (hy b hb)
      · exact List.sorted_cons.mpr ⟨hy, hys⟩
      · rw [List.sorted_cons]
        refine ⟨?_, ih hys⟩
        intro b hb
        rcases mem_insertSorted.mp hb with rfl | hb
        · omega
        · exact hy b hb

lemma uniqueSorted_cons (x : ℤ) (xs : List ℤ) :
    uniqueSorted (x :: xs) = insertSorted x (uniqueSorted xs) := rfl

lemma sorted_uniqueSorted (l : List ℤ) : (uniqueSorted l).Sorted (· < ·) := by
  induction l with
  | nil => simp [uniqueSorted]
  | cons x xs ih => exact sorted_insertSorted ih

lemma mem_uniqueSorted {a : ℤ} {l : List ℤ} : a ∈ uniqueSorted l ↔ a ∈ l := by
  induction l with
  | nil => simp [uniqueSorted]
  | cons x xs ih =>
      rw [uniqueSorted_cons, mem_insertSorted, ih, List.mem_cons]

lemma nodup_uniqueSorted (l : List ℤ) : (uniqueSorted l).Nodup :=
  (sorted_uniqueSorted l).nodup

lemma toFinset_uniqueSorted (l : List ℤ) : (uniqueSorted l).toFinset = l.toFinset := by
  ext a
  simp [List.mem_toFinset, mem_uniqueSorted]

lemma length_uniqueSorted (l : List ℤ) : (uniqueSorted l).length = l.dedup.length := by
  rw [← List.card_toFinset l, ← toFinset_uniqueSorted l,
    List.toFinset_card_of_nodup (nodup_uniqueSorted l)]

lemma toFinset_psusInStratum (st ps : List ℤ) (s : ℤ) :
    (psusInStratum st ps s).toFinset
      = ((st.zip ps).toFinset.filter (fun p => p.1 = s)).image Prod.snd := by
  ext b
  simp only [psusInStratum, List.mem_toFinset, List.mem_dedup, List.mem_filterMap,
    Finset.mem_image, Finset.mem_filter]
  constructor
  · rintro ⟨a, ha, hab⟩
    by_cases h : a.1 = s
    · rw [if_pos h] at hab
      exact ⟨a, ⟨ha, h⟩, Option.some.inj hab⟩
    · rw [if_neg h] at hab
      exact absurd hab (Option.noConfusion)
  · rintro ⟨a, ⟨ha, h1⟩, h2⟩
    exact ⟨a, ha, by rw [if_pos h1, h2]⟩

lemma stratumPsuCount_eq_card (st ps : List ℤ) (s : ℤ) :
    stratumPsuCount st ps s = ((st.zip ps).toFinset.filter (fun p => p.1 = s)).card := by
  have hinj : Set.InjOn Prod.snd (((st.zip ps).toFinset.filter (fun p => p.1 = s)) : Set (ℤ × ℤ)) := by
    intro p hp q hq hpq
    simp only [Finset.coe_filter, Set.mem_setOf_eq] at hp hq
    exact Prod.ext (hp.2.trans hq.2.symm) hpq
  have : ((st.zip ps).toFinset.filter (fun p => p.1 = s)).card
      = (((st.zip ps).toFinset.filter (fun p => p.1 = s)).image Prod.snd).card :=
    (Finset.card_image_of_injOn hinj).symm
  rw [this, ← toFinset_psusInStratum, stratumPsuCount]
  rw [List.card_toFinset]
  simp [psusInStratum, List.dedup_idem]

/-- Partition of the distinct (stratum, PSU) pairs by their stratum: the
per-stratum PSU counts over the distinct strata sum to the total number of
distinct pairs. -/
lemma sum_stratumPsuCount (st ps : List ℤ) :
    ((uniqueSorted st).map (stratumPsuCount st ps)).sum = ((st.zip ps).dedup).length := by
  have hfib : ∀ p ∈ (st.zip ps).toFinset, p.1 ∈ st.toFinset := by
    intro p hp
    rw [List.mem_toFinset] at hp ⊢
    rcases p with ⟨a, b⟩
    exact (List.of_mem_zip hp).1
  have hcard := Finset.card_eq_sum_card_fiberwise hfib
  rw [← List.card_toFinset, hcard, ← toFinset_uniqueSorted st,
    ← List.sum_toFinset _ (nodup_uniqueSorted st)]
  exact Finset.sum_congr rfl (fun s _ => (stratumPsuCount_eq_card st ps s))

lemma strataSizes_sum (st ps : List ℤ) :
    (strataSizes st ps).sum = ((st.zip ps).dedup).length :=
  sum_stratumPsuCount st ps

/-! ## Block structure of the jackknife coefficient matrix -/

lemma sum_take_le (L : List Nat) (k : Nat) : (L.take k).sum ≤ L.sum := by
  conv_rhs => rw [← List.take_append_drop k L]
  rw [List.sum_append]
  exact Nat.le_add_right _ _

lemma offset_le_sum (sizes : List Nat) (h : Nat) : offset sizes h ≤ sizes.sum :=
  sum_take_le sizes h

lemma offset_length (sizes : List Nat) : offset sizes sizes.length = sizes.sum := by
  rw [offset, List.take_length]

lemma offset_succ (sizes : List Nat) (h : Nat) (hh : h < sizes.length) :
    offset sizes (h + 1) = offset sizes h + sizes.getD h 0 := by
  rw [offset, offset, List.take_succ, List.sum_append]
  simp [List.getD, List.getElem?_eq_getElem hh]

lemma offset_mono (sizes : List Nat) {a b : Nat} (hab : a ≤ b) :
    offset sizes a ≤ offset sizes b := by
  have h : sizes.take a = (sizes.take b).take a := by
    rw [List.take_take, Nat.min_eq_left hab]
  rw [offset, offset, h]
  exact sum_take_le _ _

lemma sizes_decomp (sizes : List Nat) (h : Nat) (hh : h < sizes.length) :
    sizes = sizes.take h ++ sizes.getD h 0 :: sizes.drop (h + 1) := by
  conv_lhs => rw [← List.take_append_drop h sizes]
  congr 1
  rw [List.drop_eq_getElem_cons hh]
  congr 1
  exact (List.getD_eq_getElem sizes 0 hh).symm

lemma jknCoefsAux_row_lt (sizes : List Nat) (s i j : Nat) (h : i < s) :
    jknCoefsAux sizes s i j = 1 := by
  induction sizes generalizing s with
  | nil => rfl
  | cons n rest ih =>
      rw [jknCoefsAux, if_neg]
      · exact ih (s + n) (by omega)
      · rintro ⟨hsi, -⟩
        omega

/-- Value of a jackknife matrix entry whose row index lies in the block of
size `n` at offset `o`: it is the `_jkn_psus_replicates` entry when the
column index lies in the same block, and 1 otherwise. -/
lemma jknCoefsAux_master (pre : List Nat) (n : Nat) (post : List Nat) (s i j o : Nat)
    (ho : o = s + pre.sum) (h1 : o ≤ i) (h2 : i < o + n) :
    jknCoefsAux (pre ++ n :: post) s i j =
      if o ≤ j ∧ j < o + n then jknPsusReplicates n (i - o) (j - o) else 1 := by
  induction pre generalizing s with
  | nil =>
      simp only [List.sum_nil, Nat.add_zero] at ho
      subst ho
      rw [List.nil_append, jknCoefsAux]
      by_cases hj : o ≤ j ∧ j < o + n
      · rw [if_pos ⟨h1, h2, hj.1, hj.2⟩, if_pos hj]
      · rw [if_neg (by tauto), if_neg hj]
        exact jknCoefsAux_row_lt post (o + n) i j h2
  | cons m pre ih =>
      rw [List.cons_append, jknCoefsAux, if_neg]
      · exact ih (s + m) (by rw [ho, List.sum_cons]; omega)
      · rintro ⟨-, him, -⟩
        have : s + (m :: pre).sum = s + m + pre.sum := by rw [List.sum_cons]; omega
        omega

lemma rowDotE_one (E : Nat → ℚ) (l : List ℚ) : ∀ (i : Nat),
    (∀ k, i ≤ k → k < i + l.length → E k = 1) → rowDotE E i l = l.sum := by
  induction l with
  | nil => intro i _; simp [rowDotE]
  | cons z zs ih =>
      intro i h
      have hlen : (z :: zs).length = zs.length + 1 := List.length_cons z zs
      rw [rowDotE, List.sum_cons, h i le_rfl (by rw [hlen]; omega),
        ih (i + 1) (fun k hk1 hk2 => h k (by omega) (by rw [hlen]; omega)), one_mul]

lemma rowDotE_except (c : ℚ) (gabs : Nat) (E : Nat → ℚ) (l : List ℚ) : ∀ (i : Nat),
    (∀ k, i ≤ k → k < i + l.length → E k = c * (if k = gabs then 0 else 1)) →
    rowDotE E i l
      = c * (l.sum - (if i ≤ gabs ∧ gabs < i + l.length then l.getD (gabs - i) 0 else 0)) := by
  induction l with
  | nil =>
      intro i _
      simp [rowDotE]
  | cons z zs ih =>
      intro i h
      have hlen : (z :: zs).length = zs.length + 1 := List.length_cons z zs
      rw [rowDotE, List.sum_cons, h i le_rfl (by rw [hlen]; omega),
        ih (i + 1) (fun k hk1 hk2 => h k (by omega) (by rw [hlen]; omega))]
      by_cases hi : i = gabs
      · subst hi
        rw [if_pos rfl, if_neg (by omega), if_pos ⟨le_rfl, by rw [hlen]; omega⟩]
        rw [Nat.sub_self, List.getD_cons_zero]
        ring
      · rw [if_neg hi]
        by_cases hg : i + 1 ≤ gabs ∧ gabs < i + 1 + zs.length
        · rw [if_pos hg, if_pos ⟨by omega, by rw [hlen]; omega⟩]
          have hsub : gabs - i = (gabs - (i + 1)) + 1 := by omega
          rw [hsub, List.getD_cons_succ]
          ring
        · rw [if_neg hg, if_neg (by rw [hlen]; intro hcon; rcases hcon with ⟨ha, hb⟩; omega)]
          ring

/-- If `A ++ x :: rest1 = B ++ rest2` and `A` is strictly shorter than `B`,
then the lengths of `A`'s blocks plus `x` fit inside the lengths of `B`'s
blocks. -/
lemma append_take_sum {A B rest1 rest2 : List (List ℚ)} {x : List ℚ}
    (h : A ++ x :: rest1 = B ++ rest2) (hlen : A.length < B.length) :
    (A.map List.length).sum + x.length ≤ (B.map List.length).sum := by
  have h2 : (A ++ [x]) ++ rest1 = B ++ rest2 := by
    rw [List.append_assoc]
    exact h
  have h4 : (A ++ [x]).length = A.length + 1 := by simp
  have htake : A ++ [x] = B.take (A.length + 1) := by
    have h3 := congrArg (List.take (A.length + 1)) h2
    rw [List.take_left' h4, List.take_append_of_le_length (by omega)] at h3
    exact h3
  have h5 : (A.map List.length).sum + x.length = ((A ++ [x]).map List.length).sum := by
    rw [List.map_append, List.sum_append]
    simp
  rw [h5, htake, List.map_take]
  exact sum_take_le _ _

/-- Core evaluation of `dotColAux`: walking the remaining blocks `rest` of
`D = preD ++ dH :: postD` from offset `(consumed.map length).sum`, the value
is the plain sum of the remaining entries, adjusted — when the column's
block `dH` has not been passed yet — by replacing the contribution `Σ dH` of
that block with `(n/(n-1)) * (Σ dH - dH_gl)`. -/
lemma dotColAux_eval (preD : List (List ℚ)) (dH : List ℚ) (postD : List (List ℚ)) (gl : Nat)
    (hgl : gl < dH.length) :
    ∀ (rest consumed : List (List ℚ)),
      preD ++ dH :: postD = consumed ++ rest →
      dotColAux ((preD ++ dH :: postD).map List.length) ((preD.map List.length).sum + gl)
          ((consumed.map List.length).sum) rest
        = (rest.map List.sum).sum +
          (if consumed.length ≤ preD.length then
            ((dH.length : ℚ) / ((dH.length : ℚ) - 1)) * (dH.sum - dH.getD gl 0) - dH.sum
           else 0) := by
  intro rest
  induction rest with
  | nil =>
      intro consumed hc
      have hlen : consumed.length = preD.length + 1 + postD.length := by
        have := congrArg List.length hc
        simp at this
        omega
      rw [if_neg (by omega)]
      simp [dotColAux]
  | cons l rest' ih =>
      intro consumed hc
      have hsizes : (preD ++ dH :: postD).map List.length
          = consumed.map List.length ++ l.length :: rest'.map List.length := by
        rw [hc, List.map_append, List.map_cons]
      have hc' : preD ++ dH :: postD = (consumed ++ [l]) ++ rest' := by
        rw [List.append_assoc]
        exact hc
      have hlensum : ((consumed ++ [l]).map List.length).sum
          = (consumed.map List.length).sum + l.length := by
        rw [List.map_append, List.sum_append]
        simp
      rw [dotColAux]
      rcases lt_trichotomy consumed.length preD.length with hlt | heq | hgt
      · -- the column's block is strictly ahead: all entries of this row block are 1
        have hcol : (consumed.map List.length).sum + l.length ≤ (preD.map List.length).sum :=
          append_take_sum hc.symm hlt
        have hE : ∀ k, (consumed.map List.length).sum ≤ k →
            k < (consumed.map List.length).sum + l.length →
            jknCoefsAux ((preD ++ dH :: postD).map List.length) 0 k
              ((preD.map List.length).sum + gl) = 1 := by
          intro k hk1 hk2
          rw [hsizes, jknCoefsAux_master (consumed.map List.length) l.length
            (rest'.map List.length) 0 k ((preD.map List.length).sum + gl)
            ((consumed.map List.length).sum) (by omega) hk1 hk2]
          rw [if_neg (by rintro ⟨ha, hb⟩; omega)]
        rw [rowDotE_one _ l _ hE, ← hlensum, ih (consumed ++ [l]) hc']
        rw [if_pos (show (consumed ++ [l]).length ≤ preD.length by
            rw [List.length_append]; simp; omega),
          if_pos (show consumed.length ≤ preD.length by omega)]
        rw [List.map_cons, List.sum_cons]
        ring
      · -- this row block is the column's block
        obtain ⟨hpre, hcons⟩ := List.append_inj hc (by omega)
        injection hcons with hdH hpost
        subst hdH
        subst hpost
        have hosum : (consumed.map List.length).sum = (preD.map List.length).sum := by
          rw [hpre]
        have hE : ∀ k, (consumed.map List.length).sum ≤ k →
            k < (consumed.map List.length).sum + dH.length →
            jknCoefsAux ((preD ++ dH :: postD).map List.length) 0 k
              ((preD.map List.length).sum + gl)
              = ((dH.length : ℚ) / ((dH.length : ℚ) - 1)) *
                  (if k = (preD.map List.length).sum + gl then 0 else 1) := by
          intro k hk1 hk2
          rw [hsizes, jknCoefsAux_master (consumed.map List.length) dH.length
            (postD.map List.length) 0 k ((preD.map List.length).sum + gl)
            ((consumed.map List.length).sum) (by omega) hk1 hk2]
          rw [if_pos ⟨by omega, by omega⟩]
          rw [jknPsusReplicates]
          congr 1
          by_cases hkg : k = (preD.map List.length).sum + gl
          · rw [if_pos hkg, if_pos (by omega)]
          · rw [if_neg (by omega), if_neg hkg]
        rw [rowDotE_except ((dH.length : ℚ) / ((dH.length : ℚ) - 1))
          ((preD.map List.length).sum + gl) _ dH _ hE]
        rw [if_pos ⟨by omega, by omega⟩,
          show (preD.map List.length).sum + gl - (consumed.map List.length).sum = gl from by omega]
        rw [← hlensum, ih (consumed ++ [dH]) hc']
        rw [if_neg (show ¬(consumed ++ [dH]).length ≤ preD.length by
            rw [List.length_append]; simp; omega),
          if_pos (show consumed.length ≤ preD.length by omega)]
        rw [List.map_cons, List.sum_cons]
        ring
      · -- the column's block has already been passed: all entries are 1
        have hcol : (preD.map List.length).sum + dH.length ≤ (consumed.map List.length).sum :=
          append_take_sum hc hgt
        have hE : ∀ k, (consumed.map List.length).sum ≤ k →
            k < (consumed.map List.length).sum + l.length →
            jknCoefsAux ((preD ++ dH :: postD).map List.length) 0 k
              ((preD.map List.length).sum + gl) = 1 := by
          intro k hk1 hk2
          rw [hsizes, jknCoefsAux_master (consumed.map List.length) l.length
            (rest'.map List.length) 0 k ((preD.map List.length).sum + gl)
            ((consumed.map List.length).sum) (by omega) hk1 hk2]
          rw [if_neg (by rintro ⟨ha, hb⟩; omega)]
        rw [rowDotE_one _ l _ hE, ← hlensum, ih (consumed ++ [l]) hc']
        rw [if_neg (show ¬(consumed ++ [l]).length ≤ preD.length by
            rw [List.length_append]; simp; omega),
          if_neg (show ¬consumed.length ≤ preD.length by omega)]
        rw [List.map_cons, List.sum_cons]
        ring

lemma jknRepCoefAux_out (sizes : List Nat) (s g : Nat) (base : ℚ) (h : g < s) :
    jknRepCoefAux sizes s g base = base := by
  induction sizes generalizing s with
  | nil => rfl
  | cons n rest ih =>
      rw [jknRepCoefAux, if_neg]
      · exact ih (s + n) (by omega)
      · rintro ⟨hsg, -⟩
        omega

/-- Value of the jackknife combination coefficient of a replicate lying in
the block of size `n` at offset `o`. -/
lemma jknRepCoefAux_master (pre : List Nat) (n : Nat) (post : List Nat) (s g o : Nat)
    (base : ℚ) (ho : o = s + pre.sum) (h1 : o ≤ g) (h2 : g < o + n) :
    jknRepCoefAux (pre ++ n :: post) s g base = ((n : ℚ) - 1) / (n : ℚ) := by
  induction pre generalizing s with
  | nil =>
      simp only [List.sum_nil, Nat.add_zero] at ho
      subst ho
      rw [List.nil_append, jknRepCoefAux, if_pos ⟨h1, h2⟩]
  | cons m pre ih =>
      rw [List.cons_append, jknRepCoefAux, if_neg]
      · exact ih (s + m) (by rw [ho, List.sum_cons]; omega)
      · rintro ⟨-, hgm⟩
        have : s + (m :: pre).sum = s + m + pre.sum := by rw [List.sum_cons]; omega
        omega

/-! ## The jackknife variance of a total equals the Taylor variance -/

/-- Deviation of a replicate total from the full-sample total: only the
column's own stratum contributes. -/
lemma repTotal_sub_total (preD : List (List ℚ)) (dH : List ℚ) (postD : List (List ℚ))
    (gl : Nat) (hgl : gl < dH.length) :
    repTotal (preD ++ dH :: postD) ((preD.map List.length).sum + gl)
        - totalOf (preD ++ dH :: postD)
      = ((dH.length : ℚ) / ((dH.length : ℚ) - 1)) * (dH.sum - dH.getD gl 0) - dH.sum := by
  have h := dotColAux_eval preD dH postD gl hgl (preD ++ dH :: postD) [] rfl
  rw [if_pos (by simp)] at h
  rw [repTotal, totalOf]
  simp only [List.map_nil, List.sum_nil] at h
  rw [h]
  ring

/-- Combination coefficient of a replicate in the block of stratum `dH`. -/
lemma jkRepCoef_at (preD : List (List ℚ)) (dH : List ℚ) (postD : List (List ℚ))
    (gl : Nat) (hgl : gl < dH.length) :
    jkRepCoef (preD ++ dH :: postD) ((preD.map List.length).sum + gl)
      = ((dH.length : ℚ) - 1) / (dH.length : ℚ) := by
  rw [jkRepCoef]
  have hsizes : (preD ++ dH :: postD).map List.length
      = preD.map List.length ++ dH.length :: postD.map List.length := by
    rw [List.map_append, List.map_cons]
  rw [hsizes]
  exact jknRepCoefAux_master (preD.map List.length) dH.length (postD.map List.length) 0
    ((preD.map List.length).sum + gl) ((preD.map List.length).sum) _ (by omega) (by omega)
    (by omega)

/-- Per-block decomposition of a sum over `List.range`. -/
def blockSums (f : Nat → ℚ) : List Nat → Nat → ℚ
  | [], _ => 0
  | n :: rest, start =>
      ((List.range n).map (fun g => f (start + g))).sum + blockSums f rest (start + n)

lemma blockSums_eq (f : Nat → ℚ) : ∀ (ns : List Nat) (start : Nat),
    blockSums f ns start = ((List.range ns.sum).map (fun g => f (start + g))).sum := by
  intro ns
  induction ns with
  | nil => intro start; simp [blockSums]
  | cons n rest ih =>
      intro start
      rw [blockSums, List.sum_cons, List.range_add, List.map_append, List.sum_append, ih (start + n)]
      congr 1
      rw [List.map_map]
      apply congrArg List.sum
      apply List.map_congr_left
      intro a _
      simp only [Function.comp_apply]
      congr 1
      omega

lemma blockSums_range (f : Nat → ℚ) (ns : List Nat) :
    blockSums f ns 0 = ((List.range ns.sum).map f).sum := by
  rw [blockSums_eq f ns 0]
  apply congrArg
  apply List.map_congr_left
  intro a _
  rw [Nat.zero_add]

/-- The per-replicate algebraic identity behind the jackknife⁄Taylor match:
with coefficient `(n-1)/n` the squared deviation
`(n/(n-1))*(T-z) - T` contributes `(n/(n-1)) * (z - T/n)^2`. -/
lemma jk_term_algebra (n T z : ℚ) (hn0 : n ≠ 0) (hn1 : n - 1 ≠ 0) :
    ((n - 1) / n) * ((n / (n - 1)) * (T - z) - T) ^ 2 = (n / (n - 1)) * (z - T / n) ^ 2 := by
  field_simp
  ring

lemma sum_range_map_getD (f : ℚ → ℚ) : ∀ (l : List ℚ),
    ((List.range l.length).map (fun g => f (l.getD g 0))).sum = (l.map f).sum := by
  intro l
  induction l with
  | nil => simp
  | cons z zs ih =>
      rw [List.length_cons, List.range_succ_eq_map, List.map_cons, List.sum_cons,
        List.getD_cons_zero, List.map_cons, List.sum_cons, List.map_map]
      congr 1

/-- The block of stratum `dH` contributes exactly its Taylor variance term. -/
lemma block_contribution (preD : List (List ℚ)) (dH : List ℚ) (postD : List (List ℚ))
    (hn : 2 ≤ dH.length) :
    ((List.range dH.length).map (fun g =>
        jkRepCoef (preD ++ dH :: postD) ((preD.map List.length).sum + g) *
          (repTotal (preD ++ dH :: postD) ((preD.map List.length).sum + g)
            - totalOf (preD ++ dH :: postD)) ^ 2)).sum
      = ((dH.length : ℚ) / ((dH.length : ℚ) - 1)) *
          (dH.map (fun z => (z - dH.sum / (dH.length : ℚ)) ^ 2)).sum := by
  have hn0 : (dH.length : ℚ) ≠ 0 := by
    have : (2 : ℚ) ≤ (dH.length : ℚ) := by exact_mod_cast hn
    intro h
    rw [h] at this
    norm_num at this
  have hn1 : (dH.length : ℚ) - 1 ≠ 0 := by
    have : (2 : ℚ) ≤ (dH.length : ℚ) := by exact_mod_cast hn
    intro h
    have : (dH.length : ℚ) = 1 := by linarith
    rw [this] at *
    linarith
  have hterm : ∀ g ∈ List.range dH.length,
      jkRepCoef (preD ++ dH :: postD) ((preD.map List.length).sum + g) *
        (repTotal (preD ++ dH :: postD) ((preD.map List.length).sum + g)
          - totalOf (preD ++ dH :: postD)) ^ 2
      = ((dH.length : ℚ) / ((dH.length : ℚ) - 1)) *
          (dH.getD g 0 - dH.sum / (dH.length : ℚ)) ^ 2 := by
    intro g hg
    rw [List.mem_range] at hg
    rw [jkRepCoef_at preD dH postD g hg, repTotal_sub_total preD dH postD g hg]
    exact jk_term_algebra (dH.length : ℚ) dH.sum (dH.getD g 0) hn0 hn1
  rw [List.map_congr_left hterm,
    ← sum_range_map_getD (fun z => (z - dH.sum / (dH.length : ℚ)) ^ 2) dH]
  exact List.sum_map_mul_left _ _ _

/-- Walking the strata: the jackknife variance decomposes block by block into
the Taylor variance terms. -/
lemma jkVar_blocks (D : List (List ℚ)) : ∀ (rest consumed : List (List ℚ)),
    D = consumed ++ rest → (∀ l ∈ rest, 2 ≤ l.length) →
    blockSums (fun g => jkRepCoef D g * (repTotal D g - totalOf D) ^ 2)
        (rest.map List.length) ((consumed.map List.length).sum)
      = (rest.map (fun l => ((l.length : ℚ) / ((l.length : ℚ) - 1)) *
          (l.map (fun z => (z - l.sum / (l.length : ℚ)) ^ 2)).sum)).sum := by
  intro rest
  induction rest with
  | nil =>
      intro consumed _ _
      simp [blockSums]
  | cons l rest' ih =>
      intro consumed hD hlen
      subst hD
      rw [List.map_cons, blockSums, List.map_cons, List.sum_cons]
      congr 1
      · exact block_contribution consumed l rest' (hlen l (List.mem_cons_self l rest'))
      · have hlensum : ((consumed ++ [l]).map List.length).sum
            = (consumed.map List.length).sum + l.length := by
          rw [List.map_append, List.sum_append]
          simp
        rw [← hlensum]
        exact ih (consumed ++ [l]) (by rw [List.append_assoc]; rfl)
          (fun x hx => hlen x (List.mem_cons_of_mem l hx))

/-- For every stratified PSU-level dataset whose strata all hold at least two
PSUs, the jackknife variance of the total computed from the code's replicate
weight set equals the Taylor-linearization variance of the total. -/
lemma jkVarTotal_eq_taylorVarTotal (D : List (List ℚ)) (hD : ∀ l ∈ D, 2 ≤ l.length) :
    jkVarTotal D = taylorVarTotal D := by
  rw [jkVarTotal, ← blockSums_range, taylorVarTotal]
  have h := jkVar_blocks D D [] rfl hD
  simpa using h

/-! ## Jackknife structure: counting the key rows -/

lemma mem_insertByStratum {a x : Option ℤ × ℤ} {l : List (Option ℤ × ℤ)} :
    a ∈ insertByStratum x l ↔ a = x ∨ a ∈ l := by
  induction l with
  | nil => simp [insertByStratum]
  | cons y ys ih =>
      rw [insertByStratum]
      split_ifs with h1
      · simp [List.mem_cons]
      · rw [List.mem_cons, ih, List.mem_cons]
        tauto

lemma mem_sortByStratum_aux (l : List (Option ℤ × ℤ)) :
    ∀ (acc : List (Option ℤ × ℤ)) (a : Option ℤ × ℤ),
      a ∈ l.foldl (fun acc x => insertByStratum x acc) acc ↔ a ∈ l ∨ a ∈ acc := by
  induction l with
  | nil => intro acc a; simp
  | cons x xs ih =>
      intro acc a
      rw [List.foldl_cons, ih (insertByStratum x acc) a, mem_insertByStratum, List.mem_cons]
      tauto

lemma mem_sortByStratum {a : Option ℤ × ℤ} {l : List (Option ℤ × ℤ)} :
    a ∈ sortByStratum l ↔ a ∈ l := by
  rw [sortByStratum, mem_sortByStratum_aux l [] a]
  simp

lemma toFinset_sortByStratum (l : List (Option ℤ × ℤ)) :
    (sortByStratum l).toFinset = l.toFinset := by
  ext a
  simp [List.mem_toFinset, mem_sortByStratum]

lemma toFinset_map_keys (l : List (ℤ × ℤ)) :
    ((l.map (fun p => ((some p.1 : Option ℤ), p.2))).toFinset)
      = l.toFinset.image (fun p => ((some p.1 : Option ℤ), p.2)) := by
  ext a
  simp [List.mem_toFinset, List.mem_map, Finset.mem_image]

/-- The number of distinct sorted key rows equals the number of distinct
(stratum, PSU) pairs. -/
lemma psusIds_length (strat psu : List ℤ) :
    ((sortByStratum ((strat.zip psu).map (fun p => ((some p.1 : Option ℤ), p.2)))).dedup).length
      = ((strat.zip psu).dedup).length := by
  rw [← List.card_toFinset, ← List.card_toFinset, toFinset_sortByStratum, toFinset_map_keys]
  apply Finset.card_image_of_injective
  intro a b hab
  rcases a with ⟨a1, a2⟩
  rcases b with ⟨b1, b2⟩
  simp only [Prod.mk.injEq, Option.some.injEq] at hab
  exact Prod.ext hab.1 hab.2

/-- Entry of the stratified jackknife matrix, by block coordinates: replicate
`g` of stratum `h` assigns 0 to PSU `g` itself, `n_h/(n_h - 1)` to the other
PSUs of stratum `h`, and 1 to the PSUs of every other stratum. -/
lemma jknCoefsAux_entry (sizes : List Nat) (h hp g p : Nat)
    (hh : h < sizes.length) (hhp : hp < sizes.length)
    (hg : g < sizes.getD h 0) (hpb : p < sizes.getD hp 0) :
    jknCoefsAux sizes 0 (offset sizes hp + p) (offset sizes h + g)
      = if hp = h then
          (if p = g then 0 else (sizes.getD h 0 : ℚ) / ((sizes.getD h 0 : ℚ) - 1))
        else 1 := by
  have hdec := sizes_decomp sizes hp hhp
  have hmaster := jknCoefsAux_master (sizes.take hp) (sizes.getD hp 0) (sizes.drop (hp + 1)) 0
    (offset sizes hp + p) (offset sizes h + g) (offset sizes hp) (by rw [offset]; omega)
    (by omega) (by omega)
  rw [← hdec] at hmaster
  rw [hmaster]
  by_cases hcase : hp = h
  · subst hcase
    rw [if_pos ⟨by omega, by omega⟩, if_pos rfl, Nat.add_sub_cancel_left,
      Nat.add_sub_cancel_left, jknPsusReplicates]
    by_cases hpg : p = g
    · rw [if_pos hpg, if_pos hpg, mul_zero]
    · rw [if_neg hpg, if_neg hpg, mul_one]
  · rw [if_neg hcase, if_neg ?_]
    rintro ⟨hc1, hc2⟩
    rcases lt_or_gt_of_ne hcase with hlt | hgt
    · have e1 := offset_succ sizes hp hhp
      have e2 := offset_mono sizes (show hp + 1 ≤ h by omega)
      omega
    · have e1 := offset_succ sizes h hh
      have e2 := offset_mono sizes (show h + 1 ≤ hp by omega)
      omega

lemma getD_map_range (fn : Nat → ℚ) (R idx : Nat) (h : idx < R) :
    ((List.range R).map fn).getD idx 0 = fn idx := by
  rw [List.getD_eq_getElem _ _ (by simpa using h)]
  simp

lemma offset_add_lt_sum (sizes : List Nat) (h g : Nat) (hh : h < sizes.length)
    (hg : g < sizes.getD h 0) : offset sizes h + g < sizes.sum := by
  have e1 := offset_succ sizes h hh
  have e2 := offset_mono sizes (show h + 1 ≤ sizes.length by omega)
  have e3 := offset_length sizes
  omega

/-- The value of the `jknRepCoefAux` coefficient at block coordinates. -/
lemma jknRepCoefAux_entry (sizes : List Nat) (h g : Nat) (base : ℚ)
    (hh : h < sizes.length) (hg : g < sizes.getD h 0) :
    jknRepCoefAux sizes 0 (offset sizes h + g) base
      = ((sizes.getD h 0 : ℚ) - 1) / (sizes.getD h 0 : ℚ) := by
  have hdec := sizes_decomp sizes h hh
  have hmaster := jknRepCoefAux_master (sizes.take h) (sizes.getD h 0) (sizes.drop (h + 1)) 0
    (offset sizes h + g) (offset sizes h) base (by rw [offset]; omega) (by omega) (by omega)
  rw [← hdec] at hmaster
  exact hmaster

/-- The `replicate` call for a stratified jackknife request, fully reduced:
it always succeeds, with `number_reps` the number of distinct sorted key
rows, the `_jkn_replicates` combination coefficients and matrix, and the
merged table. -/
lemma replicate_jackknife_eq (nr : Nat) (f : ℚ) (strat psu : List ℤ) (w : List ℚ) (flag : Bool)
    (rng : Nat → Nat → Nat → Nat) :
    replicate (init "jackknife" true nr f) w psu (some strat) flag rng
      = Except.ok
          { table := buildTable ((strat.zip psu).map (fun p => ((some p.1 : Option ℤ), p.2))) w
              ((sortByStratum ((strat.zip psu).map (fun p => ((some p.1 : Option ℤ), p.2)))).dedup)
              (jknMatrixList psu (some strat)
                ((sortByStratum ((strat.zip psu).map (fun p =>
                  ((some p.1 : Option ℤ), p.2)))).dedup).length)
              flag
            repCoefs := jknRepCoefsList psu (some strat)
              ((sortByStratum ((strat.zip psu).map (fun p =>
                ((some p.1 : Option ℤ), p.2)))).dedup).length
            numberReps :=
              ((sortByStratum ((strat.zip psu).map (fun p =>
                ((some p.1 : Option ℤ), p.2)))).dedup).length
            dof := degreeOfFreedom w (some strat) psu } := by
  with_unfolding_all rfl

/-! ## BRR failure characterization and unknown-method dispatch -/

lemma brrNumberReps_some_err_iff (r0 : Nat) (psu strat : List ℤ) :
    brrNumberReps r0 psu (some strat) = Except.error RepError.assertionError
      ↔ 2 * strat.dedup.length ≠ ((strat.zip psu).dedup).length := by
  simp only [brrNumberReps]
  split_ifs with hcond
  · simp [hcond]
  · simp [hcond]

/-- A stratified `"brr"` call (Fay coefficient 0) raises the
`AssertionError` exactly when `_brr_number_reps` does. -/
lemma replicate_brr_some_err (nr : Nat) (w : List ℚ) (psu strat : List ℤ) (flag : Bool)
    (rng : Nat → Nat → Nat → Nat) :
    replicate (init "brr" true nr 0) w psu (some strat) flag rng
        = Except.error RepError.assertionError
      ↔ brrNumberReps 0 psu (some strat) = Except.error RepError.assertionError := by
  have hst : init "brr" true nr 0 = ⟨"brr", true, 0, 0, []⟩ := by with_unfolding_all rfl
  rw [hst]
  simp only [replicate, replicateCore, assembleWith, dispatch]
  norm_num
  rw [if_neg (by decide : ¬("brr" = "jackknife")), if_neg (by decide : ¬("brr" = "bootstrap"))]
  rcases hb : brrNumberReps 0 psu (some strat) with e | rns
  · cases e <;> simp [hb, Bind.bind, Except.bind]
  · simp [hb, Bind.bind, Except.bind]

lemma sum_map_two (f : ℤ → Nat) (l : List ℤ) (hf : ∀ s ∈ l, f s = 2) :
    (l.map f).sum = 2 * l.length := by
  induction l with
  | nil => simp
  | cons x xs ih =>
      rw [List.map_cons, List.sum_cons, hf x (List.mem_cons_self x xs),
        ih (fun s hs => hf s (List.mem_cons_of_mem x hs)), List.length_cons]
      ring

/-- If every stratum holds exactly 2 distinct PSUs, the count check of
`_brr_number_reps` is satisfied. -/
lemma brr_check_pass_of_two (psu strat : List ℤ)
    (hall : ∀ s ∈ uniqueSorted strat, stratumPsuCount strat psu s = 2) :
    2 * strat.dedup.length = ((strat.zip psu).dedup).length := by
  have h1 : ((uniqueSorted strat).map (stratumPsuCount strat psu)).sum
      = 2 * (uniqueSorted strat).length := sum_map_two _ _ hall
  have h2 := sum_stratumPsuCount strat psu
  have h3 := length_uniqueSorted strat
  omega

/-- The attribute `init "brr" ... numberReps ...` ignores its replicate-count
argument: `__init__` resets `number_reps` to 0 for BRR (line 32). -/
lemma init_brr_numberReps (strat : Bool) (nr : Nat) (f : ℚ) :
    init "brr" strat nr f = init "brr" strat 0 f := by
  with_unfolding_all rfl

/-- The `degree_of_freedom` attribute after a call, `-1` if the call
raised. -/
def dofOf (r : Except RepError RepOutput) : ℤ :=
  match r with
  | Except.ok o => o.dof
  | Except.error _ => -1

/-! ## The claims -/

/-- C1: the claim states that for BRR the replicate count is raised to at
least the number of strata and then, above 28, rounded *up* to the next
power of two, so that it always stays `≥` the number of strata.  The code
instead computes `2 ^ int(math.log(r, 2))`, rounding *down*: with 60 PSUs
(30 implicit strata, `number_reps` starting from the 0 set by `__init__` for
BRR) `_brr_number_reps` yields 16 replicates, strictly fewer than the 30
strata — contradicting both the claim and the subsequent Hadamard-slicing
needs of `_brr_replicates`. -/
theorem C1_brr_rounds_down_below_strata :
    brrNumberReps 0 ((List.range 60).map (fun n => (n : ℤ))) none = Except.ok (16, 60, 30)
      ∧ 16 < 30 :=
  ⟨rfl, by decide⟩

/-- C2: the claim states that after a bootstrap `replicate` call `rep_coefs`
is a length-`R` vector of `1/R`.  In the code, `__init__` line 30 sets it so,
but line 37 unconditionally overwrites `rep_coefs = []`, and the bootstrap
branch of `replicate` never re-assigns it: after the call the vector is
empty, not `[1/R, ..., 1/R]`. -/
theorem C2_bootstrap_rep_coefs_empty :
    repCoefsOf (replicate (init "bootstrap" false 2 0) [1, 1] [1, 2] none false rngZero) = []
      ∧ ([] : List ℚ) ≠ List.replicate 2 ((1 : ℚ) / 2) :=
  ⟨by with_unfolding_all rfl, by simp⟩

/-- C3: the claim states that after a BRR `replicate` call every `rep_coefs`
entry equals `1/(R*(1-f)^2)`.  `_brr_replicates` (line 158) sets exactly
that, but `replicate` lines 266-268 then overwrite it with the
unparenthesized `1 / R * (1-f)^2 = (1-f)^2 / R`: with Fay coefficient `1/2`
and 2 strata (so `R = 4`) the stored entries are `1/16`, whereas the claim
requires `1/(4*(1/2)^2) = 1`. -/
theorem C3_brr_rep_coefs_formula_bug :
    repCoefsOf (replicate (init "brr" true 500 (1/2)) [1, 1, 1, 1] [1, 2, 1, 2]
        (some [1, 1, 2, 2]) false rngZero)
      = List.replicate 4 ((1 : ℚ) / 16)
      ∧ ((1 : ℚ) / 16) ≠ 1 / ((4 : ℚ) * (1 - 1/2) ^ 2) :=
  ⟨by with_unfolding_all rfl, by norm_num⟩

/-- C4: for every stratified input whose strata all hold `n_h ≥ 2` PSUs, the
jackknife call succeeds, the number of replicates equals the number of
distinct (stratum, PSU) pairs (one replicate per PSU, summed across strata),
the coefficient matrix assigns — for the replicate deleting PSU `g` of
stratum `h` — 0 to PSU `g` itself, `n_h/(n_h-1)` to the other PSUs of
stratum `h` and 1 to the PSUs of every other stratum, and the combination
coefficient of that replicate is `(n_h-1)/n_h`. -/
theorem C4_jackknife_structure (strat psu : List ℤ) (w : List ℚ) (flag : Bool)
    (rng : Nat → Nat → Nat → Nat) (nr : Nat) (f : ℚ)
    (_hsz : ∀ n ∈ strataSizes strat psu, 2 ≤ n) :
    ∃ out, replicate (init "jackknife" true nr f) w psu (some strat) flag rng = Except.ok out
      ∧ out.numberReps = ((strat.zip psu).dedup).length
      ∧ out.numberReps = (strataSizes strat psu).sum
      ∧ (∀ h hp g p, h < (strataSizes strat psu).length → hp < (strataSizes strat psu).length →
          g < (strataSizes strat psu).getD h 0 → p < (strataSizes strat psu).getD hp 0 →
          jknCoefsAux (strataSizes strat psu) 0 (offset (strataSizes strat psu) hp + p)
              (offset (strataSizes strat psu) h + g)
            = if hp = h then
                (if p = g then 0
                 else ((strataSizes strat psu).getD h 0 : ℚ)
                    / (((strataSizes strat psu).getD h 0 : ℚ) - 1))
              else 1)
      ∧ (∀ h g, h < (strataSizes strat psu).length → g < (strataSizes strat psu).getD h 0 →
          out.repCoefs.getD (offset (strataSizes strat psu) h + g) 0
            = (((strataSizes strat psu).getD h 0 : ℚ) - 1)
                / ((strataSizes strat psu).getD h 0 : ℚ)) := by
  refine ⟨_, replicate_jackknife_eq nr f strat psu w flag rng, ?_, ?_, ?_, ?_⟩
  · exact psusIds_length strat psu
  · rw [psusIds_length strat psu]
    exact (strataSizes_sum strat psu).symm
  · intro h hp g p hh hhp hg hpb
    exact jknCoefsAux_entry (strataSizes strat psu) h hp g p hh hhp hg hpb
  · intro h g hh hg
    show (jknRepCoefsList psu (some strat)
      ((sortByStratum ((strat.zip psu).map (fun p =>
        ((some p.1 : Option ℤ), p.2)))).dedup).length).getD
        (offset (strataSizes strat psu) h + g) 0 = _
    have hR : ((sortByStratum ((strat.zip psu).map (fun p =>
        ((some p.1 : Option ℤ), p.2)))).dedup).length = (strataSizes strat psu).sum := by
      rw [psusIds_length strat psu]
      exact (strataSizes_sum strat psu).symm
    rw [hR]
    simp only [jknRepCoefsList]
    rw [getD_map_range _ _ _ (offset_add_lt_sum _ h g hh hg)]
    exact jknRepCoefAux_entry (strataSizes strat psu) h g _ hh hg

/-- C4 witness: a concrete stratified input (strata 5 and 7, two PSUs each)
satisfying the hypothesis, at which `C4_jackknife_structure` applies. -/
theorem C4_jackknife_structure_witness :
    ∃ out, replicate (init "jackknife" true 500 0) [1, 1, 1, 1] [1, 2, 1, 2]
        (some [5, 5, 7, 7]) false rngZero = Except.ok out
      ∧ out.numberReps = ((([5, 5, 7, 7] : List ℤ).zip ([1, 2, 1, 2] : List ℤ)).dedup).length
      ∧ out.numberReps = (strataSizes [5, 5, 7, 7] [1, 2, 1, 2]).sum
      ∧ (∀ h hp g p, h < (strataSizes [5, 5, 7, 7] [1, 2, 1, 2]).length →
          hp < (strataSizes [5, 5, 7, 7] [1, 2, 1, 2]).length →
          g < (strataSizes [5, 5, 7, 7] [1, 2, 1, 2]).getD h 0 →
          p < (strataSizes [5, 5, 7, 7] [1, 2, 1, 2]).getD hp 0 →
          jknCoefsAux (strataSizes [5, 5, 7, 7] [1, 2, 1, 2]) 0
              (offset (strataSizes [5, 5, 7, 7] [1, 2, 1, 2]) hp + p)
              (offset (strataSizes [5, 5, 7, 7] [1, 2, 1, 2]) h + g)
            = if hp = h then
                (if p = g then 0
                 else ((strataSizes [5, 5, 7, 7] [1, 2, 1, 2]).getD h 0 : ℚ)
                    / (((strataSizes [5, 5, 7, 7] [1, 2, 1, 2]).getD h 0 : ℚ) - 1))
              else 1)
      ∧ (∀ h g, h < (strataSizes [5, 5, 7, 7] [1, 2, 1, 2]).length →
          g < (strataSizes [5, 5, 7, 7] [1, 2, 1, 2]).getD h 0 →
          out.repCoefs.getD (offset (strataSizes [5, 5, 7, 7] [1, 2, 1, 2]) h + g) 0
            = (((strataSizes [5, 5, 7, 7] [1, 2, 1, 2]).getD h 0 : ℚ) - 1)
                / ((strataSizes [5, 5, 7, 7] [1, 2, 1, 2]).getD h 0 : ℚ)) :=
  C4_jackknife_structure [5, 5, 7, 7] [1, 2, 1, 2] [1, 1, 1, 1] false rngZero 500 0 (by decide)

/-- C5 (amended): for every stratified PSU-level dataset with at least two
PSUs per stratum, the jackknife variance `Σ_g coef_g (θ_g - θ)^2` of the
*total*, computed from the code's replicate weight set, equals the
Taylor-linearization variance of the total exactly.  (The original claim
extends this to the mean; `C5_mean_counterexample` refutes that part.) -/
theorem C5_total_jackknife_eq_taylor (D : List (List ℚ)) (hD : ∀ l ∈ D, 2 ≤ l.length) :
    jkVarTotal D = taylorVarTotal D :=
  jkVarTotal_eq_taylorVarTotal D hD

/-- C5 witness: a concrete two-stratum dataset satisfying the hypothesis. -/
theorem C5_total_jackknife_eq_taylor_witness :
    jkVarTotal [[1, 2], [3, 4, 5]] = taylorVarTotal [[1, 2], [3, 4, 5]] :=
  C5_total_jackknife_eq_taylor [[1, 2], [3, 4, 5]] (by decide)

/-- C5 counterexample: for the mean the claim fails.  On the unstratified
dataset with weights `[1, 1, 2]` and values `[0, 1, 1]` the jackknife
variance of the mean from the code's replicate weights is `19/216 ≈ 0.08796`
while the Taylor-linearization variance is `21/256 ≈ 0.08203` — a relative
gap of about 7%, far beyond floating-point tolerance. -/
theorem C5_mean_counterexample :
    jkVarMeanUnstrat [1, 1, 2] [0, 1, 1] = 19/216
      ∧ taylorVarMeanUnstrat [1, 1, 2] [0, 1, 1] = 21/256
      ∧ jkVarMeanUnstrat [1, 1, 2] [0, 1, 1] ≠ taylorVarMeanUnstrat [1, 1, 2] [0, 1, 1] :=
  ⟨by with_unfolding_all rfl, by with_unfolding_all rfl, by with_unfolding_all decide⟩

/-- C6: the claim states that the degrees of freedom count PSUs as distinct
(stratum, PSU) pairs.  `_degree_of_freedom` instead uses
`np.unique(psu).size`, the number of distinct PSU *labels*: on the
stratified input with strata `[1, 1, 2, 2]` and PSUs `[1, 2, 1, 2]` (labels
reused across strata) the code reports `2 - 2 = 0` degrees of freedom, while
the claim's pair counting gives `4 - 2 = 2` — as `_brr_number_reps` itself
counts (`np.unique(zip(stratum, psu))`). -/
theorem C6_dof_counts_labels_not_pairs :
    degreeOfFreedom [1, 1, 1, 1] (some [1, 1, 2, 2]) [1, 2, 1, 2] = 0
      ∧ dofOf (replicate (init "jackknife" true 500 0) [1, 1, 1, 1] [1, 2, 1, 2]
          (some [1, 1, 2, 2]) false rngZero) = 0
      ∧ (((([1, 1, 2, 2] : List ℤ).zip ([1, 2, 1, 2] : List ℤ)).dedup).length : ℤ)
          - (([1, 1, 2, 2] : List ℤ).dedup.length : ℤ) = 2
      ∧ (0 : ℤ) ≠ 2 :=
  ⟨by decide, by with_unfolding_all rfl, by decide, by decide⟩

/-- C7 (amended): a stratified BRR call raises the `AssertionError`-kind
error if and only if the number of distinct (stratum, PSU) pairs differs
from twice the number of strata — a *total*-count check, not a per-stratum
one; in particular, when every stratum holds exactly 2 PSUs the check
passes.  (The original "iff some stratum does not contain exactly 2 PSUs" is
refuted by `C7_check_passes_with_unbalanced_strata`.) -/
theorem C7_check_iff_pairs_twice_strata (nr : Nat) (w : List ℚ) (psu strat : List ℤ)
    (flag : Bool) (rng : Nat → Nat → Nat → Nat) :
    (replicate (init "brr" true nr 0) w psu (some strat) flag rng
        = Except.error RepError.assertionError
      ↔ 2 * strat.dedup.length ≠ ((strat.zip psu).dedup).length)
    ∧ ((∀ s ∈ uniqueSorted strat, stratumPsuCount strat psu s = 2) →
        replicate (init "brr" true nr 0) w psu (some strat) flag rng
          ≠ Except.error RepError.assertionError) := by
  constructor
  · rw [replicate_brr_some_err nr w psu strat flag rng]
    exact brrNumberReps_some_err_iff 0 psu strat
  · intro hall hcon
    rw [replicate_brr_some_err nr w psu strat flag rng,
      brrNumberReps_some_err_iff 0 psu strat] at hcon
    exact hcon (brr_check_pass_of_two psu strat hall)

/-- C7 witness: on a balanced concrete input (2 strata × 2 PSUs) the
pass-direction of `C7_check_iff_pairs_twice_strata` applies. -/
theorem C7_check_iff_pairs_twice_strata_witness :
    replicate (init "brr" true 7 0) [1, 1, 1, 1] [1, 2, 1, 2] (some [1, 1, 2, 2]) false rngZero
      ≠ Except.error RepError.assertionError :=
  (C7_check_iff_pairs_twice_strata 7 [1, 1, 1, 1] [1, 2, 1, 2] [1, 1, 2, 2] false rngZero).2
    (by decide)

/-- C7 counterexample: with strata `[1, 1, 1, 2]` and PSUs `[1, 2, 3, 1]`
stratum 1 holds 3 PSUs and stratum 2 holds 1, yet the distinct pairs number
`4 = 2 × 2` strata, so the stratified BRR call passes the structural check
(no error is raised) — refuting "fails iff some stratum does not contain
exactly 2 PSUs". -/
theorem C7_check_passes_with_unbalanced_strata :
    isOk (replicate (init "brr" true 500 0) [1, 1, 1, 1] [1, 2, 3, 1]
        (some [1, 1, 1, 2]) false rngZero) = true
      ∧ (2 : ℤ) ∈ uniqueSorted [1, 1, 1, 2]
      ∧ stratumPsuCount [1, 1, 1, 2] [1, 2, 3, 1] 2 = 1
      ∧ (1 : Nat) ≠ 2 :=
  ⟨by with_unfolding_all rfl, by decide, by decide, by decide⟩

/-- C8 (amended): calling `replicate` on a generator whose method string is
none of `"jackknife"`, `"brr"`, `"bootstrap"` raises an
`AssertionError`-kind error on every input (the code's `raise
AssertionError(...)` at lines 269-272, or the earlier stratification
assertion — never a `ValueError`-kind). -/
theorem C8_unknown_method_assertionError (st : RWState) (h1 : st.method ≠ "jackknife")
    (h2 : st.method ≠ "bootstrap") (h3 : st.method ≠ "brr")
    (w : List ℚ) (psu : List ℤ) (stratum : Option (List ℤ)) (flag : Bool)
    (rng : Nat → Nat → Nat → Nat) :
    replicate st w psu stratum flag rng = Except.error RepError.assertionError := by
  rw [replicate]
  rcases hb : (if st.stratification then stratum else none) with _ | s
  · simp only [replicateCore]
    rcases hstr : st.stratification with _ | _
    · simp only [hstr, Bool.false_eq_true, if_false, if_neg h3]
      simp [assembleWith, dispatch, h1, h2, h3, Bind.bind, Except.bind]
    · simp [hstr]
  · simp only [replicateCore]
    simp [assembleWith, dispatch, h1, h2, h3, Bind.bind, Except.bind]

/-- C8 witness: a concrete unknown method, raising the `AssertionError`. -/
theorem C8_unknown_method_assertionError_witness :
    replicate (init "nonsense" false 3 0) [1, 2] [1, 2] none true rngZero
      = Except.error RepError.assertionError :=
  C8_unknown_method_assertionError (init "nonsense" false 3 0) (by with_unfolding_all decide)
    (by with_unfolding_all decide) (by with_unfolding_all decide) [1, 2] [1, 2] none true rngZero

/-- C8 counterexample: an unrecognized method raises the `AssertionError`
kind, not the `ValueError` kind the claim names. -/
theorem C8_unknown_method_not_valueError :
    replicate (init "foo" true 5 0) [1] [1] (some [1]) false rngZero
        = Except.error RepError.assertionError
      ∧ RepError.assertionError ≠ RepError.valueError :=
  ⟨by with_unfolding_all rfl, by decide⟩

/-- C9: for a generator constructed with `stratification = False`, two
`replicate` calls that differ only in the stratum argument return identical
outputs: lines 232-233 discard the stratum before any processing. -/
theorem C9_unstratified_ignores_stratum (m : String) (nr : Nat) (f : ℚ) (w : List ℚ)
    (psu : List ℤ) (s1 s2 : Option (List ℤ)) (flag : Bool)
    (rng : Nat → Nat → Nat → Nat) :
    replicate (init m false nr f) w psu s1 flag rng
      = replicate (init m false nr f) w psu s2 flag rng := rfl

/-- C10: two BRR generators that differ only in the `number_reps`
constructor argument produce identical `replicate` outputs on identical
inputs: `__init__` resets `number_reps` to 0 for BRR, so the final count
depends only on the stratum structure. -/
theorem C10_brr_ignores_number_reps (strat : Bool) (nr1 nr2 : Nat) (f : ℚ) (w : List ℚ)
    (psu : List ℤ) (s : Option (List ℤ)) (flag : Bool)
    (rng : Nat → Nat → Nat → Nat) :
    replicate (init "brr" strat nr1 f) w psu s flag rng
      = replicate (init "brr" strat nr2 f) w psu s flag rng := by
  rw [init_brr_numberReps strat nr1 f, init_brr_numberReps strat nr2 f]

end Samplics
